import Mathlib

/-!
Shallow embedding of the `timeslotassigner` repository
(`src/timeslotassigner/calendar.py`, `src/timeslotassigner/manager.py`,
`src/timeslotassigner/exceptions.py`) and proofs of the specified
properties of its interval stores, resource groups and the calendar
registry.

The Python classes are modelled as follows.

* `CalendarBase._slots : SortedDict[int, tuple[int, Any]]` becomes a
  `Store α`: a list of `(start, stop, data)` triples kept in ascending
  `start` order.  (`stop` stands for the Python field named `end`,
  which is a reserved word in Lean.)  All methods keep the list
  sorted, so the `SortedDict` bisection primitives have exact
  counterparts: `bisect_left(k)` locates the boundary between the
  entries with key `< k` and the rest, so `peekitem(bisect_left(k)-1)`
  is the last entry with key `< k` and `peekitem(bisect_left(k))` the
  first entry with key `>= k`; `bisect_right` is the same with `<=`.
  These four accessors are modelled by `prevLt`, `nextGe`, `prevLe`
  and `nextGt` below via `takeWhile`/`dropWhile` on the sorted list.
* The `ValueError` raised on `start >= end` (the spec's `InvalidRange`
  condition) is modelled by the `InvalidRange` error value of an
  `Except` result.  The embedding is pure: when an operation signals
  `InvalidRange` it returns no new store, so the caller's store is
  untouched, exactly as in the Python code where the exception is
  raised before any mutation of `_slots`.
* Python `dict` (insertion ordered) becomes an association list with
  `dictGet`/`dictSet`; `dictSet` overwrites in place when the key is
  present and appends otherwise, matching `d[k] = v`.
* The unbounded `while True` loop of `_find_available_slot` is modelled
  with explicit fuel; `slots.length + 1` units of fuel are proven
  sufficient for every well-formed store (the termination property),
  and fuel exhaustion is represented by `none`.
-/

namespace TimeSlot

/-- The contents of `CalendarBase._slots`: entries `(start, stop, data)`
in ascending `start` order, one per stored slot. -/
abbrev Store (α : Type) : Type := List (Int × Int × α)

/-- Models the `ValueError` raised for `start >= end` (the spec's
`InvalidRange` failure condition); it carries the offending bounds just
as the Python message and `InvalidTimeRangeError` do. -/
structure InvalidRange where
  start : Int
  stop : Int
  deriving DecidableEq, Repr

/-- `peekitem(bisect_left(key) - 1)`: the last stored entry whose start
is strictly below `key`, if any. -/
def prevLt {α : Type} (slots : Store α) (key : Int) : Option (Int × Int × α) :=
  (slots.takeWhile (fun sl => sl.1 < key)).getLast?

/-- `peekitem(bisect_left(key))`: the first stored entry whose start is
at least `key`, if any. -/
def nextGe {α : Type} (slots : Store α) (key : Int) : Option (Int × Int × α) :=
  (slots.dropWhile (fun sl => sl.1 < key)).head?

/-- `peekitem(bisect_right(key) - 1)`: the last stored entry whose start
is at most `key`, if any. -/
def prevLe {α : Type} (slots : Store α) (key : Int) : Option (Int × Int × α) :=
  (slots.takeWhile (fun sl => sl.1 ≤ key)).getLast?

/-- `peekitem(bisect_right(key))`: the first stored entry whose start is
strictly above `key`, if any. -/
def nextGt {α : Type} (slots : Store α) (key : Int) : Option (Int × Int × α) :=
  (slots.dropWhile (fun sl => sl.1 ≤ key)).head?

/-- `CalendarBase._has_conflict`: checks the immediate predecessor
(`bisect_left` minus one) for `prev_end > start` and the entry at the
insertion point for `next_start < end`. -/
def hasConflict {α : Type} (slots : Store α) (start stop : Int) : Bool :=
  (match prevLt slots start with
   | some sl => decide (start < sl.2.1)
   | none => false) ||
  (match nextGe slots start with
   | some sl => decide (sl.1 < stop)
   | none => false)

/-- `self._slots[start] = (stop, data)` on the sorted dict: insert in
key order, replacing an existing entry with the same key. -/
def storePut {α : Type} : Store α → Int → Int → α → Store α
  | [], start, stop, data => [(start, stop, data)]
  | sl :: rest, start, stop, data =>
    if start < sl.1 then (start, stop, data) :: sl :: rest
    else if start = sl.1 then (start, stop, data) :: rest
    else sl :: storePut rest start stop data

/-- `CalendarBase.add_slot`: raise on `start >= end`, refuse on
conflict, otherwise store the slot and report success. -/
def add_slot {α : Type} (slots : Store α) (start stop : Int) (data : α) :
    Except InvalidRange (Bool × Store α) :=
  if start ≥ stop then .error ⟨start, stop⟩
  else if hasConflict slots start stop then .ok (false, slots)
  else .ok (true, storePut slots start stop data)

/-- One pass of the body of the `while True` loop of
`CalendarBase._find_available_slot` after the conflict test: `some t2`
means the candidate time advances to `t2`, `none` means the loop
returns the current candidate. -/
def shiftStep {α : Type} (slots : Store α) (t : Int) : Option Int :=
  let step3 : Option Int :=
    match nextGe slots t with
    | some sl => some sl.2.1
    | none => none
  match prevLe slots t with
  | some sl => if sl.2.1 > t then some sl.2.1 else step3
  | none => step3

/-- `CalendarBase._find_available_slot`, with fuel standing in for the
unbounded Python loop; `none` is fuel exhaustion, which
`findAvailableSlot_terminates` below shows cannot happen with fuel
`slots.length + 1` on a well-formed store. -/
def findAvailableSlot {α : Type} (slots : Store α) (duration : Int) :
    Nat → Int → Option Int
  | 0, _ => none
  | fuel + 1, t =>
    if hasConflict slots t (t + duration) then
      match shiftStep slots t with
      | some t2 => findAvailableSlot slots duration fuel t2
      | none => some t
    else some t

/-- `CalendarBase.add_slot_with_shift`: raise on `start >= end`, search
forward from `start` for a free block of the requested duration, store
it there and return the actual bounds. -/
def add_slot_with_shift {α : Type} (slots : Store α) (start stop : Int) (data : α) :
    Except InvalidRange (Option ((Int × Int) × Store α)) :=
  if start ≥ stop then .error ⟨start, stop⟩
  else
    let duration := stop - start
    match findAvailableSlot slots duration (slots.length + 1) start with
    | some t => .ok (some ((t, t + duration), storePut slots t (t + duration) data))
    | none => .ok none

/-- `CalendarBase.remove_slot`: delete the entry whose key equals
`start`; report whether one existed. -/
def remove_slot {α : Type} (slots : Store α) (start : Int) : Bool × Store α :=
  if slots.any (fun sl => sl.1 = start) then
    (true, slots.eraseP (fun sl => sl.1 = start))
  else (false, slots)

/-- `CalendarBase.get_slot_at`: `peekitem(bisect_right(time) - 1)`, then
the half-open bounds check `start <= time < end`. -/
def get_slot_at {α : Type} (slots : Store α) (time : Int) : Option (Int × Int × α) :=
  match prevLe slots time with
  | some sl => if sl.1 ≤ time ∧ time < sl.2.1 then some sl else none
  | none => none

/-- `CalendarBase.get_all_slots`: the stored `(start, end, data)`
triples in chronological order, which is the store itself. -/
def get_all_slots {α : Type} (slots : Store α) : List (Int × Int × α) :=
  slots

/-- `CalendarBase.left_slot`: `peekitem(bisect_left(start) - 1)`. -/
def left_slot {α : Type} (slots : Store α) (start : Int) : Option (Int × Int × α) :=
  prevLt slots start

/-- `CalendarBase.right_slot`: `peekitem(bisect_right(start))`. -/
def right_slot {α : Type} (slots : Store α) (start : Int) : Option (Int × Int × α) :=
  nextGt slots start

/-- Well-formedness of a store, the data-model invariant of §3: every
slot has strictly positive duration and earlier slots end no later than
later slots start (so the store is sorted and overlap-free). -/
def WF {α : Type} (slots : Store α) : Prop :=
  (∀ sl ∈ slots, sl.1 < sl.2.1) ∧ slots.Pairwise (fun a b => a.2.1 ≤ b.1)

/-- `[s, e)` intersects some stored slot: the semantic notion of
conflict the search primitives are measured against. -/
def Overlaps {α : Type} (slots : Store α) (s e : Int) : Prop :=
  ∃ sl ∈ slots, sl.1 < e ∧ s < sl.2.1

instance {α : Type} (slots : Store α) : Decidable (WF slots) := by
  unfold WF; infer_instance

instance {α : Type} (slots : Store α) (s e : Int) : Decidable (Overlaps slots s e) := by
  unfold Overlaps; infer_instance

/-- One call against a single store, for stating the invariant over
arbitrary operation sequences (§8): the three mutating operations of
`CalendarBase`. -/
inductive Op (α : Type) where
  | add (start stop : Int) (data : α)
  | addWithShift (start stop : Int) (data : α)
  | remove (start : Int)

/-- The store left behind by one operation: the new store on success,
the untouched store when the call reports a conflict, returns `false`,
or raises `InvalidRange`. -/
def applyOp {α : Type} (slots : Store α) : Op α → Store α
  | .add start stop data =>
    match add_slot slots start stop data with
    | .ok (_, slots2) => slots2
    | .error _ => slots
  | .addWithShift start stop data =>
    match add_slot_with_shift slots start stop data with
    | .ok (some (_, slots2)) => slots2
    | .ok none => slots
    | .error _ => slots
  | .remove start => (remove_slot slots start).2

/-- The store reached from the empty store by a sequence of calls. -/
def runOps {α : Type} (ops : List (Op α)) : Store α :=
  ops.foldl applyOp []

/-! ### The `dict`-backed composition layers

Python `dict`s preserve insertion order; `d[k] = v` updates in place
when `k` is present and appends otherwise.  `Calendar._calendars :
dict[str, CalendarBase]` and `CalendarManager._calendars : dict[Any,
Calendar]` are modelled as association lists with these exact
semantics.  Methods that mutate a contained store or calendar in place
are modelled by writing the new value back under the same key, which
keeps its position. -/

/-- `d.get(k)` on an insertion-ordered `dict`. -/
def dictGet {κ V : Type} [DecidableEq κ] (d : List (κ × V)) (k : κ) : Option V :=
  (d.find? (fun p => decide (p.1 = k))).map (fun p => p.2)

/-- `k in d`. -/
def dictContains {κ V : Type} [DecidableEq κ] (d : List (κ × V)) (k : κ) : Bool :=
  (dictGet d k).isSome

/-- `d[k] = v`: replace in place if present, append otherwise. -/
def dictSet {κ V : Type} [DecidableEq κ] : List (κ × V) → κ → V → List (κ × V)
  | [], k, v => [(k, v)]
  | p :: rest, k, v =>
    if p.1 = k then (k, v) :: rest else p :: dictSet rest k v

/-- `list(d.keys())`. -/
def dictKeys {κ V : Type} (d : List (κ × V)) : List κ :=
  d.map (fun p => p.1)

/-- `Calendar._calendars`: one store per resource id.  (The
`resource_id` field stored inside each `CalendarBase` never enters the
logic, so only the mapping key carries it here.) -/
abbrev Calendar (α : Type) : Type := List (String × Store α)

namespace Calendar

/-- `Calendar.add_resource`: create an empty store unless the resource
already exists. -/
def add_resource {α : Type} (c : Calendar α) (rid : String) : Calendar α :=
  if dictContains c rid then c else dictSet c rid []

/-- The auto-creation step shared by the mutating `Calendar` methods:
`if resource_id not in self._calendars: self.add_resource(resource_id)`. -/
def ensure_resource {α : Type} (c : Calendar α) (rid : String) : Calendar α :=
  if dictContains c rid then c else add_resource c rid

/-- `Calendar.add_slot`: auto-create the resource, then delegate to
`CalendarBase.add_slot`.  The state after the call is returned in both
outcomes, because the auto-creation has already mutated the mapping
when the range check raises. -/
def add_slot {α : Type} (c : Calendar α) (rid : String) (start stop : Int)
    (data : α) : Calendar α × Except InvalidRange Bool :=
  let c1 := ensure_resource c rid
  let store := (dictGet c1 rid).getD []
  match TimeSlot.add_slot store start stop data with
  | .ok (ok, store2) => (dictSet c1 rid store2, .ok ok)
  | .error err => (c1, .error err)

/-- `Calendar.add_slot_with_shift`: auto-create, delegate to
`CalendarBase.add_slot_with_shift`. -/
def add_slot_with_shift {α : Type} (c : Calendar α) (rid : String)
    (start stop : Int) (data : α) :
    Calendar α × Except InvalidRange (Option (Int × Int)) :=
  let c1 := ensure_resource c rid
  let store := (dictGet c1 rid).getD []
  match TimeSlot.add_slot_with_shift store start stop data with
  | .ok (some (bounds, store2)) => (dictSet c1 rid store2, .ok (some bounds))
  | .ok none => (c1, .ok none)
  | .error err => (c1, .error err)

/-- `Calendar.get_slots_at`: every resource's hit at `time`, in
resource insertion order. -/
def get_slots_at {α : Type} (c : Calendar α) (time : Int) :
    List (String × Int × Int × α) :=
  c.filterMap (fun p => (TimeSlot.get_slot_at p.2 time).map (fun sl => (p.1, sl)))

/-- `Calendar.get_all_resources`. -/
def get_all_resources {α : Type} (c : Calendar α) : List String :=
  dictKeys c

end Calendar

/-- `CalendarManager._calendars`: one `Calendar` per key. -/
abbrev CalendarManager (κ α : Type) : Type := List (κ × Calendar α)

namespace CalendarManager

/-- `CalendarManager.add_calendar(key)` with no calendar supplied: a
fresh empty calendar is stored under the key, replacing any previous
entry. -/
def add_calendar {κ α : Type} [DecidableEq κ] (m : CalendarManager κ α)
    (key : κ) : CalendarManager κ α :=
  dictSet m key []

/-- The auto-creation step shared by the mutating manager methods:
`if calendar_key not in self._calendars: self.add_calendar(calendar_key)`. -/
def ensure_calendar {κ α : Type} [DecidableEq κ] (m : CalendarManager κ α)
    (key : κ) : CalendarManager κ α :=
  if dictContains m key then m else add_calendar m key

/-- `CalendarManager.add_slot`: auto-create the calendar, delegate to
`Calendar.add_slot`, and keep the mutated calendar even when the call
raises (the Python calendar object is mutated in place, so writing the
new calendar back under its key models exactly that). -/
def add_slot {κ α : Type} [DecidableEq κ] (m : CalendarManager κ α) (key : κ)
    (rid : String) (start stop : Int) (data : α) :
    CalendarManager κ α × Except InvalidRange Bool :=
  let m1 := ensure_calendar m key
  let cal := (dictGet m1 key).getD []
  let res := Calendar.add_slot cal rid start stop data
  (dictSet m1 key res.1, res.2)

/-- `CalendarManager.add_slot_with_shift`: same auto-create and
delegate pattern. -/
def add_slot_with_shift {κ α : Type} [DecidableEq κ] (m : CalendarManager κ α)
    (key : κ) (rid : String) (start stop : Int) (data : α) :
    CalendarManager κ α × Except InvalidRange (Option (Int × Int)) :=
  let m1 := ensure_calendar m key
  let cal := (dictGet m1 key).getD []
  let res := Calendar.add_slot_with_shift cal rid start stop data
  (dictSet m1 key res.1, res.2)

/-- `CalendarManager.get_slots_at`: with a key, that calendar's hits
under its key if non-empty; without one, every calendar with a
non-empty hit list, in insertion order. -/
def get_slots_at {κ α : Type} [DecidableEq κ] (m : CalendarManager κ α)
    (time : Int) (key? : Option κ) :
    List (κ × List (String × Int × Int × α)) :=
  match key? with
  | some key =>
    match dictGet m key with
    | some cal =>
      let slots := Calendar.get_slots_at cal time
      if slots.isEmpty then [] else [(key, slots)]
    | none => []
  | none =>
    m.filterMap (fun p =>
      let slots := Calendar.get_slots_at p.2 time
      if slots.isEmpty then none else some (p.1, slots))

/-- `CalendarManager.add_resource_to_calendar`: auto-create the
calendar, then `Calendar.add_resource`. -/
def add_resource_to_calendar {κ α : Type} [DecidableEq κ]
    (m : CalendarManager κ α) (key : κ) (rid : String) : CalendarManager κ α :=
  let m1 := ensure_calendar m key
  let cal := (dictGet m1 key).getD []
  dictSet m1 key (Calendar.add_resource cal rid)

/-- `CalendarManager.get_calendar_resources`: the calendar's resource
ids, or the empty list when the key is absent — a pure read that
creates nothing. -/
def get_calendar_resources {κ α : Type} [DecidableEq κ]
    (m : CalendarManager κ α) (key : κ) : List String :=
  match dictGet m key with
  | some cal => Calendar.get_all_resources cal
  | none => []

/-- `CalendarManager.bulk_assign_slots`: run `add_slot` on each 5-tuple
in order, collecting the boolean outcomes.  When one call raises
`InvalidRange` the Python exception propagates out of the loop: the
result is that error, the items already processed keep their effects,
and the remaining items are not executed. -/
def bulk_assign_slots {κ α : Type} [DecidableEq κ] (m : CalendarManager κ α) :
    List (κ × String × Int × Int × α) →
    CalendarManager κ α × Except InvalidRange (List Bool)
  | [] => (m, .ok [])
  | (key, rid, start, stop, data) :: rest =>
    match add_slot m key rid start stop data with
    | (m2, .ok ok) =>
      match bulk_assign_slots m2 rest with
      | (m3, .ok oks) => (m3, .ok (ok :: oks))
      | (m3, .error err) => (m3, .error err)
    | (m2, .error err) => (m2, .error err)

end CalendarManager

/-! ### Facts about sorted lists

The store is kept sorted, so `takeWhile`/`dropWhile` with a predicate
that is downward closed along the sort order split it exactly into the
entries satisfying the predicate and the rest, and the boundary
entries are extremal. -/

theorem mem_takeWhile_iff {β : Type} {R : β → β → Prop} {p : β → Bool}
    (hmono : ∀ a b, R a b → p b = true → p a = true) :
    ∀ {l : List β}, l.Pairwise R → ∀ {x}, (x ∈ l.takeWhile p ↔ x ∈ l ∧ p x = true)
  | [], _, x => by simp
  | a :: l, hR, x => by
    rw [List.pairwise_cons] at hR
    by_cases hpa : p a = true
    · rw [List.takeWhile_cons_of_pos hpa, List.mem_cons, List.mem_cons,
        mem_takeWhile_iff hmono hR.2]
      constructor
      · rintro (rfl | ⟨hx, hpx⟩)
        · exact ⟨Or.inl rfl, hpa⟩
        · exact ⟨Or.inr hx, hpx⟩
      · rintro ⟨rfl | hx, hpx⟩
        · exact Or.inl rfl
        · exact Or.inr ⟨hx, hpx⟩
    · rw [List.takeWhile_cons_of_neg hpa]
      simp only [List.not_mem_nil, false_iff, List.mem_cons, not_and]
      rintro (rfl | hx)
      · intro hpx; exact hpa hpx
      · intro hpx; exact hpa (hmono a x (hR.1 x hx) hpx)

theorem mem_dropWhile_iff {β : Type} {R : β → β → Prop} {p : β → Bool}
    (hmono : ∀ a b, R a b → p b = true → p a = true) :
    ∀ {l : List β}, l.Pairwise R → ∀ {x}, (x ∈ l.dropWhile p ↔ x ∈ l ∧ p x = false)
  | [], _, x => by simp
  | a :: l, hR, x => by
    rw [List.pairwise_cons] at hR
    by_cases hpa : p a = true
    · rw [List.dropWhile_cons_of_pos hpa, mem_dropWhile_iff hmono hR.2,
        List.mem_cons]
      constructor
      · rintro ⟨hx, hpx⟩; exact ⟨Or.inr hx, hpx⟩
      · rintro ⟨rfl | hx, hpx⟩
        · rw [hpa] at hpx; cases hpx
        · exact ⟨hx, hpx⟩
    · rw [List.dropWhile_cons_of_neg hpa, List.mem_cons]
      constructor
      · rintro (rfl | hx)
        · exact ⟨Or.inl rfl, Bool.eq_false_iff.mpr hpa⟩
        · refine ⟨Or.inr hx, ?_⟩
          by_contra hpx
          rw [Bool.not_eq_false] at hpx
          exact hpa (hmono a x (hR.1 x hx) hpx)
      · rintro ⟨rfl | hx, _⟩
        · exact Or.inl rfl
        · exact Or.inr hx

theorem getLast?_spec {β : Type} {R : β → β → Prop} :
    ∀ {l : List β}, l.Pairwise R → ∀ {q}, l.getLast? = some q →
      q ∈ l ∧ ∀ x ∈ l, x = q ∨ R x q
  | [], _, q => by simp
  | [a], _, q => by
    intro h
    rw [show ([a] : List β).getLast? = some a from rfl, Option.some.injEq] at h
    subst h
    refine ⟨List.mem_singleton_self a, ?_⟩
    intro x hx
    rw [List.mem_singleton] at hx
    exact Or.inl hx
  | a :: b :: l, hR, q => by
    rw [List.pairwise_cons] at hR
    rw [List.getLast?_cons_cons]
    intro h
    obtain ⟨hq, hmax⟩ := getLast?_spec hR.2 h
    refine ⟨List.mem_cons_of_mem a hq, ?_⟩
    intro x hx
    rcases List.mem_cons.mp hx with rfl | hx
    · exact Or.inr (hR.1 q hq)
    · exact hmax x hx

theorem head?_spec {β : Type} {R : β → β → Prop} {l : List β}
    (hR : l.Pairwise R) {q : β} (h : l.head? = some q) :
    q ∈ l ∧ ∀ x ∈ l, x = q ∨ R q x := by
  cases l with
  | nil => cases h
  | cons a l =>
    rw [List.pairwise_cons] at hR
    rw [List.head?_cons, Option.some.injEq] at h
    subst h
    refine ⟨List.mem_cons_self a l, ?_⟩
    intro x hx
    rcases List.mem_cons.mp hx with rfl | hx
    · exact Or.inl rfl
    · exact Or.inr (hR.1 x hx)

theorem countP_lt_of_mem {β : Type} {p q : β → Bool} :
    ∀ {l : List β} {x : β}, x ∈ l → p x = true → q x = false →
      (∀ y ∈ l, q y = true → p y = true) → l.countP q < l.countP p
  | [], x => by simp
  | a :: l, x => by
    intro hx hpx hqx himp
    rw [List.countP_cons, List.countP_cons]
    rcases List.mem_cons.mp hx with rfl | hx
    · rw [hpx, hqx]
      norm_num
      have hle : l.countP q ≤ l.countP p := by
        apply List.countP_mono_left
        intro y hy; exact himp y (List.mem_cons_of_mem x hy)
      omega
    · have hlt : l.countP q < l.countP p :=
        countP_lt_of_mem hx hpx hqx (fun y hy => himp y (List.mem_cons_of_mem a hy))
      have : (if q a = true then 1 else 0) ≤ (if p a = true then 1 else 0) := by
        by_cases hqa : q a = true
        · rw [if_pos hqa, if_pos (himp a (List.mem_cons_self a l) hqa)]
        · rw [if_neg hqa]
          by_cases hpa : p a = true
          · rw [if_pos hpa]; omega
          · rw [if_neg hpa]
      omega

/-! ### Consequences of the store invariant -/

theorem WF.sortedStarts {α : Type} {slots : Store α} (h : WF slots) :
    slots.Pairwise (fun a b : Int × Int × α => a.1 < b.1) := by
  refine List.Pairwise.imp_of_mem ?_ h.2
  intro a b ha _ hab
  exact lt_of_lt_of_le (h.1 a ha) hab

theorem WF.sublist {α : Type} {slots slots2 : Store α} (h : WF slots)
    (hs : slots2.Sublist slots) : WF slots2 :=
  ⟨fun sl hsl => h.1 sl (hs.subset hsl), List.Pairwise.sublist hs h.2⟩

theorem mem_takeWhile_lt {α : Type} {slots : Store α} (h : WF slots) (key : Int)
    {x : Int × Int × α} :
    x ∈ slots.takeWhile (fun sl => sl.1 < key) ↔ x ∈ slots ∧ x.1 < key := by
  rw [mem_takeWhile_iff (R := fun a b : Int × Int × α => a.1 < b.1) ?_ h.sortedStarts]
  · rw [decide_eq_true_eq]
  · intro a b hab hb
    rw [decide_eq_true_eq] at hb ⊢
    omega

theorem mem_dropWhile_lt {α : Type} {slots : Store α} (h : WF slots) (key : Int)
    {x : Int × Int × α} :
    x ∈ slots.dropWhile (fun sl => sl.1 < key) ↔ x ∈ slots ∧ key ≤ x.1 := by
  rw [mem_dropWhile_iff (R := fun a b : Int × Int × α => a.1 < b.1) ?_ h.sortedStarts]
  · rw [decide_eq_false_iff_not, not_lt]
  · intro a b hab hb
    rw [decide_eq_true_eq] at hb ⊢
    omega

theorem mem_takeWhile_le {α : Type} {slots : Store α} (h : WF slots) (key : Int)
    {x : Int × Int × α} :
    x ∈ slots.takeWhile (fun sl => sl.1 ≤ key) ↔ x ∈ slots ∧ x.1 ≤ key := by
  rw [mem_takeWhile_iff (R := fun a b : Int × Int × α => a.1 < b.1) ?_ h.sortedStarts]
  · rw [decide_eq_true_eq]
  · intro a b hab hb
    rw [decide_eq_true_eq] at hb ⊢
    omega

theorem mem_dropWhile_le {α : Type} {slots : Store α} (h : WF slots) (key : Int)
    {x : Int × Int × α} :
    x ∈ slots.dropWhile (fun sl => sl.1 ≤ key) ↔ x ∈ slots ∧ key < x.1 := by
  rw [mem_dropWhile_iff (R := fun a b : Int × Int × α => a.1 < b.1) ?_ h.sortedStarts]
  · rw [decide_eq_false_iff_not, not_le]
  · intro a b hab hb
    rw [decide_eq_true_eq] at hb ⊢
    omega

/-! ### The four bisection accessors on a well-formed store -/

theorem prevLt_spec {α : Type} {slots : Store α} (h : WF slots) {key : Int}
    {q : Int × Int × α} (hq : prevLt slots key = some q) :
    q ∈ slots ∧ q.1 < key ∧ ∀ x ∈ slots, x.1 < key → x = q ∨ x.2.1 ≤ q.1 := by
  have htw : (slots.takeWhile (fun sl => sl.1 < key)).Pairwise
      (fun a b : Int × Int × α => a.2.1 ≤ b.1) :=
    List.Pairwise.sublist (List.takeWhile_sublist _) h.2
  obtain ⟨hqmem, hmax⟩ := getLast?_spec htw hq
  obtain ⟨hqs, hqlt⟩ := (mem_takeWhile_lt h key).mp hqmem
  refine ⟨hqs, hqlt, ?_⟩
  intro x hx hxlt
  exact hmax x ((mem_takeWhile_lt h key).mpr ⟨hx, hxlt⟩)

theorem prevLt_none {α : Type} {slots : Store α} (h : WF slots) {key : Int}
    (hq : prevLt slots key = none) : ∀ x ∈ slots, ¬ x.1 < key := by
  intro x hx hxlt
  have hmem := (mem_takeWhile_lt h key).mpr ⟨hx, hxlt⟩
  have : (slots.takeWhile (fun sl => sl.1 < key)).getLast?.isSome :=
    List.getLast?_isSome.mpr (List.ne_nil_of_mem hmem)
  rw [prevLt] at hq
  rw [hq] at this
  cases this

theorem nextGe_spec {α : Type} {slots : Store α} (h : WF slots) {key : Int}
    {q : Int × Int × α} (hq : nextGe slots key = some q) :
    q ∈ slots ∧ key ≤ q.1 ∧ ∀ x ∈ slots, key ≤ x.1 → x = q ∨ q.2.1 ≤ x.1 := by
  have hdw : (slots.dropWhile (fun sl => sl.1 < key)).Pairwise
      (fun a b : Int × Int × α => a.2.1 ≤ b.1) :=
    List.Pairwise.sublist (List.dropWhile_sublist _) h.2
  obtain ⟨hqmem, hmin⟩ := head?_spec hdw hq
  obtain ⟨hqs, hqge⟩ := (mem_dropWhile_lt h key).mp hqmem
  refine ⟨hqs, hqge, ?_⟩
  intro x hx hxge
  exact hmin x ((mem_dropWhile_lt h key).mpr ⟨hx, hxge⟩)

theorem nextGe_none {α : Type} {slots : Store α} (h : WF slots) {key : Int}
    (hq : nextGe slots key = none) : ∀ x ∈ slots, x.1 < key := by
  intro x hx
  by_contra hxge
  have hmem := (mem_dropWhile_lt h key).mpr ⟨hx, not_lt.mp hxge⟩
  have : (slots.dropWhile (fun sl => sl.1 < key)).head?.isSome :=
    List.head?_isSome.mpr (List.ne_nil_of_mem hmem)
  rw [nextGe] at hq
  rw [hq] at this
  cases this

theorem prevLe_spec {α : Type} {slots : Store α} (h : WF slots) {key : Int}
    {q : Int × Int × α} (hq : prevLe slots key = some q) :
    q ∈ slots ∧ q.1 ≤ key ∧ ∀ x ∈ slots, x.1 ≤ key → x = q ∨ x.2.1 ≤ q.1 := by
  have htw : (slots.takeWhile (fun sl => sl.1 ≤ key)).Pairwise
      (fun a b : Int × Int × α => a.2.1 ≤ b.1) :=
    List.Pairwise.sublist (List.takeWhile_sublist _) h.2
  obtain ⟨hqmem, hmax⟩ := getLast?_spec htw hq
  obtain ⟨hqs, hqle⟩ := (mem_takeWhile_le h key).mp hqmem
  refine ⟨hqs, hqle, ?_⟩
  intro x hx hxle
  exact hmax x ((mem_takeWhile_le h key).mpr ⟨hx, hxle⟩)

theorem prevLe_none {α : Type} {slots : Store α} (h : WF slots) {key : Int}
    (hq : prevLe slots key = none) : ∀ x ∈ slots, ¬ x.1 ≤ key := by
  intro x hx hxle
  have hmem := (mem_takeWhile_le h key).mpr ⟨hx, hxle⟩
  have : (slots.takeWhile (fun sl => sl.1 ≤ key)).getLast?.isSome :=
    List.getLast?_isSome.mpr (List.ne_nil_of_mem hmem)
  rw [prevLe] at hq
  rw [hq] at this
  cases this

theorem nextGt_spec {α : Type} {slots : Store α} (h : WF slots) {key : Int}
    {q : Int × Int × α} (hq : nextGt slots key = some q) :
    q ∈ slots ∧ key < q.1 ∧ ∀ x ∈ slots, key < x.1 → x = q ∨ q.2.1 ≤ x.1 := by
  have hdw : (slots.dropWhile (fun sl => sl.1 ≤ key)).Pairwise
      (fun a b : Int × Int × α => a.2.1 ≤ b.1) :=
    List.Pairwise.sublist (List.dropWhile_sublist _) h.2
  obtain ⟨hqmem, hmin⟩ := head?_spec hdw hq
  obtain ⟨hqs, hqgt⟩ := (mem_dropWhile_le h key).mp hqmem
  refine ⟨hqs, hqgt, ?_⟩
  intro x hx hxgt
  exact hmin x ((mem_dropWhile_le h key).mpr ⟨hx, hxgt⟩)

theorem nextGt_none {α : Type} {slots : Store α} (h : WF slots) {key : Int}
    (hq : nextGt slots key = none) : ∀ x ∈ slots, x.1 ≤ key := by
  intro x hx
  by_contra hxgt
  have hmem := (mem_dropWhile_le h key).mpr ⟨hx, not_le.mp hxgt⟩
  have : (slots.dropWhile (fun sl => sl.1 ≤ key)).head?.isSome :=
    List.head?_isSome.mpr (List.ne_nil_of_mem hmem)
  rw [nextGt] at hq
  rw [hq] at this
  cases this

/-! ### Correctness of the conflict test -/

theorem hasConflict_iff {α : Type} {slots : Store α} (h : WF slots) {s e : Int}
    (hse : s < e) : hasConflict slots s e = true ↔ Overlaps slots s e := by
  rw [hasConflict, Bool.or_eq_true]
  constructor
  · rintro (hprev | hnext)
    · cases hp : prevLt slots s with
      | none => rw [hp] at hprev; cases hprev
      | some q =>
        rw [hp, decide_eq_true_eq] at hprev
        obtain ⟨hqmem, hqlt, _⟩ := prevLt_spec h hp
        exact ⟨q, hqmem, lt_trans hqlt hse, hprev⟩
    · cases hn : nextGe slots s with
      | none => rw [hn] at hnext; cases hnext
      | some q =>
        rw [hn, decide_eq_true_eq] at hnext
        obtain ⟨hqmem, hqge, _⟩ := nextGe_spec h hn
        exact ⟨q, hqmem, hnext, lt_of_le_of_lt hqge (h.1 q hqmem)⟩
  · rintro ⟨sl, hsl, hle, hgt⟩
    by_cases hcase : sl.1 < s
    · left
      cases hp : prevLt slots s with
      | none => exact absurd hcase (prevLt_none h hp sl hsl)
      | some q =>
        rw [decide_eq_true_eq]
        obtain ⟨hqmem, hqlt, hmax⟩ := prevLt_spec h hp
        rcases hmax sl hsl hcase with rfl | hgap
        · exact hgt
        · omega
    · right
      cases hn : nextGe slots s with
      | none => exact absurd (nextGe_none h hn sl hsl) hcase
      | some q =>
        rw [decide_eq_true_eq]
        obtain ⟨hqmem, hqge, hmin⟩ := nextGe_spec h hn
        rcases hmin sl hsl (not_lt.mp hcase) with rfl | hgap
        · exact hle
        · have := h.1 q hqmem
          omega

theorem not_overlaps_of_hasConflict_false {α : Type} {slots : Store α}
    (h : WF slots) {s e : Int} (hse : s < e)
    (hc : hasConflict slots s e = false) : ¬ Overlaps slots s e := by
  intro hov
  rw [← hasConflict_iff h hse] at hov
  rw [hc] at hov
  cases hov

/-! ### Insertion -/

theorem mem_storePut {α : Type} :
    ∀ {slots : Store α} {start stop : Int} {data : α} {x : Int × Int × α},
      x ∈ storePut slots start stop data → x = (start, stop, data) ∨ x ∈ slots
  | [], start, stop, data, x => by
    intro hx
    rw [storePut] at hx
    exact Or.inl (List.mem_singleton.mp hx)
  | sl :: rest, start, stop, data, x => by
    intro hx
    rw [storePut] at hx
    split at hx
    · rcases List.mem_cons.mp hx with rfl | hx
      · exact Or.inl rfl
      · exact Or.inr hx
    · split at hx
      · rcases List.mem_cons.mp hx with rfl | hx
        · exact Or.inl rfl
        · exact Or.inr (List.mem_cons_of_mem sl hx)
      · rcases List.mem_cons.mp hx with rfl | hx
        · exact Or.inr (List.mem_cons_self x rest)
        · rcases mem_storePut hx with h1 | h2
          · exact Or.inl h1
          · exact Or.inr (List.mem_cons_of_mem sl h2)

theorem storePut_mem_self {α : Type} :
    ∀ {slots : Store α} {start stop : Int} {data : α},
      (start, stop, data) ∈ storePut slots start stop data
  | [], start, stop, data => by rw [storePut]; exact List.mem_singleton_self _
  | sl :: rest, start, stop, data => by
    rw [storePut]
    split
    · exact List.mem_cons_self _ _
    · split
      · exact List.mem_cons_self _ _
      · exact List.mem_cons_of_mem sl storePut_mem_self

theorem mem_storePut_iff {α : Type} :
    ∀ {slots : Store α} {start stop : Int} {data : α},
      (∀ y ∈ slots, y.1 ≠ start) →
      ∀ {x : Int × Int × α},
        (x ∈ storePut slots start stop data ↔ x = (start, stop, data) ∨ x ∈ slots)
  | [], start, stop, data => by
    intro _ x
    rw [storePut]
    simp
  | sl :: rest, start, stop, data => by
    intro hkey x
    rw [storePut]
    split
    · rw [List.mem_cons]
    · split
      · exact absurd (Eq.symm (by assumption))
          (hkey sl (List.mem_cons_self sl rest))
      · rw [List.mem_cons,
          mem_storePut_iff (fun y hy => hkey y (List.mem_cons_of_mem sl hy)),
          List.mem_cons]
        tauto

theorem no_key_eq_start {α : Type} {slots : Store α} (h : WF slots)
    {start stop : Int} (hse : start < stop) (hno : ¬ Overlaps slots start stop) :
    ∀ y ∈ slots, y.1 ≠ start := by
  intro y hy hkey
  apply hno
  have := h.1 y hy
  exact ⟨y, hy, by omega, by omega⟩

theorem WF_storePut {α : Type} :
    ∀ {slots : Store α} {start stop : Int} {data : α},
      WF slots → start < stop → ¬ Overlaps slots start stop →
      WF (storePut slots start stop data)
  | [], start, stop, data => by
    intro _ hse _
    rw [storePut]
    refine ⟨?_, ?_⟩
    · intro sl hsl
      rw [List.mem_singleton] at hsl
      subst hsl
      exact hse
    · exact List.pairwise_singleton _ _
  | sl :: rest, start, stop, data => by
    intro hwf hse hno
    have hpos : sl.1 < sl.2.1 := hwf.1 sl (List.mem_cons_self sl rest)
    have hhead : ∀ y ∈ rest, sl.2.1 ≤ y.1 := by
      intro y hy
      exact (List.pairwise_cons.mp hwf.2).1 y hy
    have hwf_rest : WF rest :=
      ⟨fun y hy => hwf.1 y (List.mem_cons_of_mem sl hy),
       (List.pairwise_cons.mp hwf.2).2⟩
    have hno_sl : ¬ (sl.1 < stop ∧ start < sl.2.1) :=
      fun hc => hno ⟨sl, List.mem_cons_self sl rest, hc⟩
    have hno_rest : ¬ Overlaps rest start stop := by
      rintro ⟨y, hy, hc⟩
      exact hno ⟨y, List.mem_cons_of_mem sl hy, hc⟩
    rw [storePut]
    split
    · rename_i hlt
      have hes : stop ≤ sl.1 := by omega
      refine ⟨?_, ?_⟩
      · intro y hy
        rcases List.mem_cons.mp hy with rfl | hy
        · exact hse
        · exact hwf.1 y hy
      · rw [List.pairwise_cons]
        refine ⟨?_, hwf.2⟩
        intro y hy
        show stop ≤ y.1
        rcases List.mem_cons.mp hy with rfl | hy
        · exact hes
        · have := hhead y hy
          omega
    · split
      · rename_i hne heq
        exact absurd ⟨by omega, by omega⟩ hno_sl
      · rename_i hne hne2
        have hgt : sl.1 < start := by omega
        have hstop_le : sl.2.1 ≤ start := by omega
        refine ⟨?_, ?_⟩
        · intro y hy
          rcases List.mem_cons.mp hy with rfl | hy
          · exact hpos
          · rcases mem_storePut hy with rfl | hy2
            · exact hse
            · exact hwf_rest.1 y hy2
        · rw [List.pairwise_cons]
          refine ⟨?_, (WF_storePut hwf_rest hse hno_rest).2⟩
          intro y hy
          rcases mem_storePut hy with rfl | hy2
          · exact hstop_le
          · exact hhead y hy2

/-! ### The shift search -/

theorem shiftStep_advance {α : Type} {slots : Store α} (h : WF slots) {t t2 : Int}
    (hs : shiftStep slots t = some t2) : t < t2 ∧ ∃ sl ∈ slots, t2 = sl.2.1 := by
  cases hp : prevLe slots t with
  | some q =>
    simp only [shiftStep, hp] at hs
    by_cases hqe : q.2.1 > t
    · rw [if_pos hqe, Option.some.injEq] at hs
      subst hs
      exact ⟨hqe, q, (prevLe_spec h hp).1, rfl⟩
    · rw [if_neg hqe] at hs
      cases hn : nextGe slots t with
      | some n =>
        rw [hn, Option.some.injEq] at hs
        subst hs
        obtain ⟨hnmem, hnge, _⟩ := nextGe_spec h hn
        have := h.1 n hnmem
        exact ⟨by omega, n, hnmem, rfl⟩
      | none => rw [hn] at hs; cases hs
  | none =>
    simp only [shiftStep, hp] at hs
    cases hn : nextGe slots t with
    | some n =>
      rw [hn, Option.some.injEq] at hs
      subst hs
      obtain ⟨hnmem, hnge, _⟩ := nextGe_spec h hn
      have := h.1 n hnmem
      exact ⟨by omega, n, hnmem, rfl⟩
    | none => rw [hn] at hs; cases hs

theorem shiftStep_none_no_conflict {α : Type} {slots : Store α} (h : WF slots)
    {t d : Int} (hd : 0 < d) (hc : hasConflict slots t (t + d) = true)
    (hs : shiftStep slots t = none) : False := by
  obtain ⟨sl, hsl, hsl_lt, hsl_gt⟩ := (hasConflict_iff h (by omega)).mp hc
  cases hp : prevLe slots t with
  | some q =>
    simp only [shiftStep, hp] at hs
    by_cases hqe : q.2.1 > t
    · rw [if_pos hqe] at hs; cases hs
    · rw [if_neg hqe] at hs
      cases hn : nextGe slots t with
      | some n => rw [hn] at hs; cases hs
      | none =>
        have hall := nextGe_none h hn
        have hsl_le : sl.1 ≤ t := le_of_lt (hall sl hsl)
        obtain ⟨hqmem, hqle, hmax⟩ := prevLe_spec h hp
        rcases hmax sl hsl hsl_le with rfl | hgap
        · omega
        · have := h.1 q hqmem
          omega
  | none =>
    simp only [shiftStep, hp] at hs
    cases hn : nextGe slots t with
    | some n => rw [hn] at hs; cases hs
    | none =>
      have hall := nextGe_none h hn
      exact prevLe_none h hp sl hsl (le_of_lt (hall sl hsl))

theorem shiftStep_gap {α : Type} {slots : Store α} (h : WF slots) {t t2 d : Int}
    (hd : 0 < d) (hc : hasConflict slots t (t + d) = true)
    (hs : shiftStep slots t = some t2) :
    ∀ u, t ≤ u → u < t2 → Overlaps slots u (u + d) := by
  intro u hu hu2
  obtain ⟨sl, hsl, hsl_lt, hsl_gt⟩ := (hasConflict_iff h (by omega)).mp hc
  cases hp : prevLe slots t with
  | some q =>
    simp only [shiftStep, hp] at hs
    obtain ⟨hqmem, hqle, hmax⟩ := prevLe_spec h hp
    by_cases hqe : q.2.1 > t
    · rw [if_pos hqe, Option.some.injEq] at hs
      subst hs
      exact ⟨q, hqmem, by omega, by omega⟩
    · rw [if_neg hqe] at hs
      cases hn : nextGe slots t with
      | none => rw [hn] at hs; cases hs
      | some n =>
        rw [hn, Option.some.injEq] at hs
        subst hs
        obtain ⟨hnmem, hnge, hmin⟩ := nextGe_spec h hn
        have hsl_gt_t : t < sl.1 := by
          by_contra hle
          rcases hmax sl hsl (by omega) with rfl | hgap
          · omega
          · have := h.1 q hqmem
            omega
        have hn_lt : n.1 < t + d := by
          rcases hmin sl hsl (by omega) with rfl | hgap
          · omega
          · have := h.1 n hnmem
            omega
        exact ⟨n, hnmem, by omega, by omega⟩
  | none =>
    simp only [shiftStep, hp] at hs
    cases hn : nextGe slots t with
    | none => rw [hn] at hs; cases hs
    | some n =>
      rw [hn, Option.some.injEq] at hs
      subst hs
      obtain ⟨hnmem, hnge, hmin⟩ := nextGe_spec h hn
      have hsl_gt_t : t < sl.1 := by
        by_contra hle
        exact prevLe_none h hp sl hsl (by omega)
      have hn_lt : n.1 < t + d := by
        rcases hmin sl hsl (by omega) with rfl | hgap
        · omega
        · have := h.1 n hnmem
          omega
      exact ⟨n, hnmem, by omega, by omega⟩

theorem findAvailableSlot_correct {α : Type} {slots : Store α} (h : WF slots)
    {d : Int} (hd : 0 < d) :
    ∀ (fuel : Nat) (t0 t : Int), findAvailableSlot slots d fuel t0 = some t →
      t0 ≤ t ∧ ¬ Overlaps slots t (t + d) ∧
        ∀ u, t0 ≤ u → u < t → Overlaps slots u (u + d)
  | 0, t0, t => by intro hfa; cases hfa
  | fuel + 1, t0, t => by
    intro hfa
    rw [findAvailableSlot] at hfa
    by_cases hc : hasConflict slots t0 (t0 + d) = true
    · rw [if_pos hc] at hfa
      cases hs : shiftStep slots t0 with
      | none => exact absurd hc (fun hcc => shiftStep_none_no_conflict h hd hcc hs)
      | some t2 =>
        rw [hs] at hfa
        obtain ⟨hadv, _⟩ := shiftStep_advance h hs
        obtain ⟨hle, hfree, hmin⟩ := findAvailableSlot_correct h hd fuel t2 t hfa
        refine ⟨by omega, hfree, ?_⟩
        intro u hu hut
        by_cases hcase : u < t2
        · exact shiftStep_gap h hd hc hs u hu hcase
        · exact hmin u (by omega) hut
    · rw [if_neg hc] at hfa
      rw [Option.some.injEq] at hfa
      subst hfa
      refine ⟨le_refl _, ?_, ?_⟩
      · exact not_overlaps_of_hasConflict_false h (by omega)
          (Bool.eq_false_iff.mpr hc)
      · intro u hu hut
        omega

theorem findAvailableSlot_suffices {α : Type} {slots : Store α} (h : WF slots)
    {d : Int} (hd : 0 < d) :
    ∀ (fuel : Nat) (t0 : Int),
      slots.countP (fun sl => decide (t0 < sl.2.1)) < fuel →
      ∃ t, findAvailableSlot slots d fuel t0 = some t
  | 0, t0 => by intro hcount; omega
  | fuel + 1, t0 => by
    intro hcount
    rw [findAvailableSlot]
    by_cases hc : hasConflict slots t0 (t0 + d) = true
    · rw [if_pos hc]
      cases hs : shiftStep slots t0 with
      | none => exact ⟨t0, rfl⟩
      | some t2 =>
        obtain ⟨hadv, sl, hslmem, hsl⟩ := shiftStep_advance h hs
        have hdec : slots.countP (fun y => decide (t2 < y.2.1)) <
            slots.countP (fun y => decide (t0 < y.2.1)) := by
          apply countP_lt_of_mem hslmem
          · rw [decide_eq_true_eq]; omega
          · rw [decide_eq_false_iff_not]; omega
          · intro y _ hy
            rw [decide_eq_true_eq] at hy ⊢
            omega
        exact findAvailableSlot_suffices h hd fuel t2 (by omega)
    · rw [if_neg hc]
      exact ⟨t0, rfl⟩

theorem findAvailableSlot_terminates {α : Type} {slots : Store α} (h : WF slots)
    {d : Int} (hd : 0 < d) (t0 : Int) :
    ∃ t, findAvailableSlot slots d (slots.length + 1) t0 = some t := by
  apply findAvailableSlot_suffices h hd
  have := List.countP_le_length (fun sl : Int × Int × α => decide (t0 < sl.2.1))
    (l := slots)
  omega

/-! ### The mutating operations on a well-formed store -/

theorem add_slot_invalid {α : Type} (slots : Store α) {start stop : Int}
    (hse : stop ≤ start) (data : α) :
    add_slot slots start stop data = .error ⟨start, stop⟩ := by
  rw [add_slot, if_pos (by omega)]

theorem add_slot_with_shift_invalid {α : Type} (slots : Store α) {start stop : Int}
    (hse : stop ≤ start) (data : α) :
    add_slot_with_shift slots start stop data = .error ⟨start, stop⟩ := by
  rw [add_slot_with_shift, if_pos (by omega)]

theorem add_slot_ok {α : Type} (slots : Store α) {start stop : Int}
    (hse : start < stop) (data : α) :
    ∃ r, add_slot slots start stop data = .ok r := by
  rw [add_slot, if_neg (by omega)]
  by_cases hc : hasConflict slots start stop = true
  · rw [if_pos hc]; exact ⟨_, rfl⟩
  · rw [if_neg hc]; exact ⟨_, rfl⟩

theorem add_slot_with_shift_ok {α : Type} (slots : Store α) {start stop : Int}
    (hse : start < stop) (data : α) :
    ∃ r, add_slot_with_shift slots start stop data = .ok r := by
  rw [add_slot_with_shift, if_neg (by omega)]
  cases hfa : findAvailableSlot slots (stop - start) (slots.length + 1) start with
  | some t => simp only [hfa]; exact ⟨_, rfl⟩
  | none => simp only [hfa]; exact ⟨_, rfl⟩

theorem add_slot_of_overlaps {α : Type} {slots : Store α} (h : WF slots)
    {start stop : Int} (hse : start < stop) (hov : Overlaps slots start stop)
    (data : α) : add_slot slots start stop data = .ok (false, slots) := by
  rw [add_slot, if_neg (by omega), if_pos ((hasConflict_iff h hse).mpr hov)]

theorem add_slot_of_not_overlaps {α : Type} {slots : Store α} (h : WF slots)
    {start stop : Int} (hse : start < stop) (hno : ¬ Overlaps slots start stop)
    (data : α) :
    add_slot slots start stop data = .ok (true, storePut slots start stop data) := by
  rw [add_slot, if_neg (by omega)]
  rw [if_neg (fun hc => hno ((hasConflict_iff h hse).mp hc))]

theorem add_slot_with_shift_spec {α : Type} {slots : Store α} (h : WF slots)
    {start stop : Int} (hse : start < stop) (data : α) :
    ∃ t, add_slot_with_shift slots start stop data =
        .ok (some ((t, t + (stop - start)),
          storePut slots t (t + (stop - start)) data)) ∧
      start ≤ t ∧ ¬ Overlaps slots t (t + (stop - start)) ∧
      ∀ u, start ≤ u → u < t → Overlaps slots u (u + (stop - start)) := by
  have hd : (0 : Int) < stop - start := by omega
  obtain ⟨t, ht⟩ := findAvailableSlot_terminates h hd start
  obtain ⟨hle, hfree, hmin⟩ :=
    findAvailableSlot_correct h hd (slots.length + 1) start t ht
  refine ⟨t, ?_, hle, hfree, hmin⟩
  rw [add_slot_with_shift, if_neg (by omega)]
  simp only [ht]

/-! ### Invariant preservation over arbitrary call sequences -/

theorem WF_applyOp {α : Type} {slots : Store α} (h : WF slots) (op : Op α) :
    WF (applyOp slots op) := by
  cases op with
  | add start stop data =>
    rw [applyOp]
    by_cases hse : start < stop
    · by_cases hov : Overlaps slots start stop
      · rw [add_slot_of_overlaps h hse hov data]
        exact h
      · rw [add_slot_of_not_overlaps h hse hov data]
        exact WF_storePut h hse hov
    · rw [add_slot_invalid slots (by omega) data]
      exact h
  | addWithShift start stop data =>
    rw [applyOp]
    by_cases hse : start < stop
    · obtain ⟨t, heq, _, hfree, _⟩ := add_slot_with_shift_spec h hse data
      rw [heq]
      exact WF_storePut h (by omega) hfree
    · rw [add_slot_with_shift_invalid slots (by omega) data]
      exact h
  | remove start =>
    rw [applyOp, remove_slot]
    by_cases hany : slots.any (fun sl => decide (sl.1 = start)) = true
    · rw [if_pos hany]
      exact h.sublist (List.eraseP_sublist slots)
    · rw [if_neg hany]
      exact h

theorem WF_empty {α : Type} : WF ([] : Store α) :=
  ⟨fun sl hsl => absurd hsl (List.not_mem_nil sl), List.Pairwise.nil⟩

theorem WF_foldl {α : Type} :
    ∀ (ops : List (Op α)) (init : Store α), WF init → WF (ops.foldl applyOp init)
  | [], init => fun h => h
  | op :: ops, init => fun h => by
    rw [List.foldl_cons]
    exact WF_foldl ops (applyOp init op) (WF_applyOp h op)

theorem WF_runOps {α : Type} (ops : List (Op α)) : WF (runOps ops) :=
  WF_foldl ops [] WF_empty

/-! ### The point and neighbour queries -/

theorem get_slot_at_iff {α : Type} {slots : Store α} (h : WF slots) (time : Int)
    (sl : Int × Int × α) :
    get_slot_at slots time = some sl ↔
      sl ∈ slots ∧ sl.1 ≤ time ∧ time < sl.2.1 := by
  constructor
  · intro hg
    cases hp : prevLe slots time with
    | none =>
      simp only [get_slot_at, hp] at hg
      cases hg
    | some q =>
      simp only [get_slot_at, hp] at hg
      split at hg
      · rename_i hcond
        rw [Option.some.injEq] at hg
        subst hg
        exact ⟨(prevLe_spec h hp).1, hcond⟩
      · cases hg
  · rintro ⟨hmem, hlo, hhi⟩
    cases hp : prevLe slots time with
    | none => exact absurd hlo (prevLe_none h hp sl hmem)
    | some q =>
      obtain ⟨hqmem, hqle, hmax⟩ := prevLe_spec h hp
      rcases hmax sl hmem hlo with rfl | hgap
      · simp only [get_slot_at, hp]
        rw [if_pos ⟨hlo, hhi⟩]
      · omega

theorem left_slot_some_iff {α : Type} {slots : Store α} (h : WF slots) (x : Int)
    (sl : Int × Int × α) :
    left_slot slots x = some sl ↔
      sl ∈ slots ∧ sl.1 < x ∧ ∀ y ∈ slots, y.1 < x → y.1 ≤ sl.1 := by
  constructor
  · intro hl
    rw [left_slot] at hl
    obtain ⟨hmem, hlt, hmax⟩ := prevLt_spec h hl
    refine ⟨hmem, hlt, ?_⟩
    intro y hy hylt
    rcases hmax y hy hylt with rfl | hgap
    · exact le_refl _
    · have := h.1 y hy
      omega
  · rintro ⟨hmem, hlt, hbig⟩
    rw [left_slot]
    cases hp : prevLt slots x with
    | none => exact absurd hlt (prevLt_none h hp sl hmem)
    | some q =>
      obtain ⟨hqmem, hqlt, hmax⟩ := prevLt_spec h hp
      rcases hmax sl hmem hlt with rfl | hgap
      · rfl
      · have h1 := hbig q hqmem hqlt
        have h2 := h.1 sl hmem
        omega

theorem left_slot_none_iff {α : Type} {slots : Store α} (h : WF slots) (x : Int) :
    left_slot slots x = none ↔ ∀ y ∈ slots, ¬ y.1 < x := by
  constructor
  · intro hl
    rw [left_slot] at hl
    exact prevLt_none h hl
  · intro hall
    cases hp : prevLt slots x with
    | none => rw [left_slot, hp]
    | some q =>
      obtain ⟨hqmem, hqlt, _⟩ := prevLt_spec h hp
      exact absurd hqlt (hall q hqmem)

theorem right_slot_some_iff {α : Type} {slots : Store α} (h : WF slots) (x : Int)
    (sl : Int × Int × α) :
    right_slot slots x = some sl ↔
      sl ∈ slots ∧ x < sl.1 ∧ ∀ y ∈ slots, x < y.1 → sl.1 ≤ y.1 := by
  constructor
  · intro hr
    rw [right_slot] at hr
    obtain ⟨hmem, hgt, hmin⟩ := nextGt_spec h hr
    refine ⟨hmem, hgt, ?_⟩
    intro y hy hygt
    rcases hmin y hy hygt with rfl | hgap
    · exact le_refl _
    · have := h.1 sl hmem
      omega
  · rintro ⟨hmem, hgt, hsmall⟩
    rw [right_slot]
    cases hp : nextGt slots x with
    | none => exact absurd hgt (fun hlt => by
        have := nextGt_none h hp sl hmem
        omega)
    | some q =>
      obtain ⟨hqmem, hqgt, hmin⟩ := nextGt_spec h hp
      rcases hmin sl hmem hgt with rfl | hgap
      · rfl
      · have h1 := hsmall q hqmem hqgt
        have h2 := h.1 q hqmem
        omega

theorem right_slot_none_iff {α : Type} {slots : Store α} (h : WF slots) (x : Int) :
    right_slot slots x = none ↔ ∀ y ∈ slots, ¬ x < y.1 := by
  constructor
  · intro hr
    rw [right_slot] at hr
    intro y hy
    have := nextGt_none h hr y hy
    omega
  · intro hall
    cases hp : nextGt slots x with
    | none => rw [right_slot, hp]
    | some q =>
      obtain ⟨hqmem, hqgt, _⟩ := nextGt_spec h hp
      exact absurd hqgt (hall q hqmem)

/-! ### Dictionary facts -/

theorem dictGet_dictSet_self {κ V : Type} [DecidableEq κ] :
    ∀ (d : List (κ × V)) (k : κ) (v : V), dictGet (dictSet d k v) k = some v
  | [], k, v => by
    rw [dictSet, dictGet, List.find?_cons_of_pos _ (by simp)]
    rfl
  | p :: rest, k, v => by
    rw [dictSet]
    by_cases hpk : p.1 = k
    · rw [if_pos hpk, dictGet, List.find?_cons_of_pos _ (by simp)]
      rfl
    · rw [if_neg hpk, dictGet, List.find?_cons_of_neg _ (by simp [hpk])]
      exact dictGet_dictSet_self rest k v

theorem dictGet_isSome_of_mem {κ V : Type} [DecidableEq κ] {d : List (κ × V)}
    {p : κ × V} (hp : p ∈ d) : (dictGet d p.1).isSome = true := by
  rw [dictGet, Option.isSome_map', List.find?_isSome]
  exact ⟨p, hp, by simp⟩

/-! ### Auto-creation on the write paths -/

theorem Calendar.ensure_resource_isSome {α : Type} (c : Calendar α)
    (rid : String) :
    (dictGet (Calendar.ensure_resource c rid) rid).isSome = true := by
  rw [Calendar.ensure_resource]
  by_cases hc : dictContains c rid = true
  · rw [if_pos hc]; exact hc
  · rw [if_neg hc, Calendar.add_resource, if_neg hc, dictGet_dictSet_self]
    rfl

theorem Calendar.ensure_resource_of_none {α : Type} {c : Calendar α}
    {rid : String} (h : dictGet c rid = none) :
    Calendar.ensure_resource c rid = dictSet c rid [] := by
  have hc : ¬ dictContains c rid = true := by
    rw [dictContains, h]; simp
  rw [Calendar.ensure_resource, if_neg hc, Calendar.add_resource, if_neg hc]

theorem Calendar.add_resource_creates {α : Type} (c : Calendar α)
    (rid : String) :
    (dictGet (Calendar.add_resource c rid) rid).isSome = true := by
  rw [Calendar.add_resource]
  by_cases hc : dictContains c rid = true
  · rw [if_pos hc]; exact hc
  · rw [if_neg hc, dictGet_dictSet_self]
    rfl

theorem Calendar.add_slot_creates_resource {α : Type} (c : Calendar α) (rid : String)
    (s e : Int) (data : α) :
    (dictGet (Calendar.add_slot c rid s e data).1 rid).isSome = true := by
  simp only [Calendar.add_slot]
  cases hres : TimeSlot.add_slot
      ((dictGet (Calendar.ensure_resource c rid) rid).getD []) s e data with
  | ok r =>
    obtain ⟨b, store2⟩ := r
    dsimp only
    rw [dictGet_dictSet_self]
    rfl
  | error err =>
    dsimp only
    exact Calendar.ensure_resource_isSome c rid

theorem Calendar.add_slot_with_shift_creates_resource {α : Type} (c : Calendar α)
    (rid : String) (s e : Int) (data : α) :
    (dictGet (Calendar.add_slot_with_shift c rid s e data).1 rid).isSome = true := by
  simp only [Calendar.add_slot_with_shift]
  cases hres : TimeSlot.add_slot_with_shift
      ((dictGet (Calendar.ensure_resource c rid) rid).getD []) s e data with
  | ok r =>
    cases r with
    | none =>
      dsimp only
      exact Calendar.ensure_resource_isSome c rid
    | some pr =>
      obtain ⟨bounds, store2⟩ := pr
      dsimp only
      rw [dictGet_dictSet_self]
      rfl
  | error err =>
    dsimp only
    exact Calendar.ensure_resource_isSome c rid

theorem Calendar.add_slot_ok_value {α : Type} (c : Calendar α) (rid : String)
    {s e : Int} (data : α) (hse : s < e) :
    ∃ b, (Calendar.add_slot c rid s e data).2 = .ok b := by
  simp only [Calendar.add_slot]
  obtain ⟨⟨b, store2⟩, hr⟩ :=
    add_slot_ok ((dictGet (Calendar.ensure_resource c rid) rid).getD []) hse data
  rw [hr]
  exact ⟨b, rfl⟩

theorem Calendar.add_slot_invalid_result {α : Type} (c : Calendar α)
    (rid : String) {s e : Int} (data : α) (hse : e ≤ s)
    (hnone : dictGet c rid = none) :
    Calendar.add_slot c rid s e data = (dictSet c rid [], .error ⟨s, e⟩) := by
  simp only [Calendar.add_slot, Calendar.ensure_resource_of_none hnone,
    dictGet_dictSet_self, Option.getD_some,
    add_slot_invalid ([] : Store α) hse data]

theorem CalendarManager.ensure_calendar_of_none {κ α : Type} [DecidableEq κ]
    {m : CalendarManager κ α} {key : κ} (h : dictGet m key = none) :
    CalendarManager.ensure_calendar m key = dictSet m key [] := by
  have hc : ¬ dictContains m key = true := by
    rw [dictContains, h]; simp
  rw [CalendarManager.ensure_calendar, if_neg hc, CalendarManager.add_calendar]

theorem CalendarManager.add_slot_creates {κ α : Type} [DecidableEq κ]
    (m : CalendarManager κ α) (key : κ) (rid : String) (s e : Int) (data : α) :
    ∃ cal, dictGet (CalendarManager.add_slot m key rid s e data).1 key = some cal ∧
      (dictGet cal rid).isSome = true := by
  simp only [CalendarManager.add_slot]
  exact ⟨_, dictGet_dictSet_self _ key _, Calendar.add_slot_creates_resource _ rid s e data⟩

theorem CalendarManager.add_slot_with_shift_creates {κ α : Type} [DecidableEq κ]
    (m : CalendarManager κ α) (key : κ) (rid : String) (s e : Int) (data : α) :
    ∃ cal, dictGet (CalendarManager.add_slot_with_shift m key rid s e data).1 key
        = some cal ∧ (dictGet cal rid).isSome = true := by
  simp only [CalendarManager.add_slot_with_shift]
  exact ⟨_, dictGet_dictSet_self _ key _,
    Calendar.add_slot_with_shift_creates_resource _ rid s e data⟩

theorem CalendarManager.add_resource_to_calendar_creates {κ α : Type}
    [DecidableEq κ] (m : CalendarManager κ α) (key : κ) (rid : String) :
    ∃ cal, dictGet (CalendarManager.add_resource_to_calendar m key rid) key
        = some cal ∧ (dictGet cal rid).isSome = true := by
  simp only [CalendarManager.add_resource_to_calendar]
  exact ⟨_, dictGet_dictSet_self _ key _, Calendar.add_resource_creates _ rid⟩

theorem CalendarManager.add_slot_ok_val {κ α : Type} [DecidableEq κ]
    (m : CalendarManager κ α) (key : κ) (rid : String) {s e : Int} (data : α)
    (hse : s < e) :
    ∃ b, (CalendarManager.add_slot m key rid s e data).2 = .ok b := by
  simp only [CalendarManager.add_slot]
  exact Calendar.add_slot_ok_value _ rid data hse

theorem CalendarManager.add_slot_invalid_spec {κ α : Type} [DecidableEq κ]
    (m : CalendarManager κ α) (key : κ) (rid : String) {s e : Int} (data : α)
    (hse : e ≤ s) (hnone : dictGet m key = none) :
    CalendarManager.add_slot m key rid s e data =
      (dictSet (dictSet m key []) key (dictSet [] rid []), .error ⟨s, e⟩) := by
  simp only [CalendarManager.add_slot, CalendarManager.ensure_calendar_of_none hnone,
    dictGet_dictSet_self, Option.getD_some,
    Calendar.add_slot_invalid_result ([] : Calendar α) rid data hse rfl]

/-! ### Concrete stores used by the specified examples -/

/-- The store holding `(10,15)`, `(20,25)`, `(30,35)` from the
multi-blocker shift example and the navigation example. -/
def demoStore3 : Store String := [(10, 15, "a"), (20, 25, "b"), (30, 35, "c")]

/-- The store holding `(10,12)` from the overlap-rejection examples. -/
def demoStore1 : Store String := [(10, 12, "a")]

/-- The store holding `(10,15)` from the half-open point-query
examples. -/
def demoStore1015 : Store String := [(10, 15, "x")]

/-! ### The claims -/

/-- C1: on a well-formed store with `start < end`, `addWithShift` finds
the smallest `t ≥ start` such that `[t, t + duration)` overlaps no
stored interval (`duration = end - start`), inserts exactly that block
and returns its bounds; in particular with stored `(10,15)`, `(20,25)`,
`(30,35)`, `addWithShift(12,32)` returns `(35,55)`. -/
theorem claim_C1_add_with_shift_minimal :
    (∀ (α : Type) (slots : Store α) (start stop : Int) (data : α),
      WF slots → start < stop →
      ∃ t, add_slot_with_shift slots start stop data =
          .ok (some ((t, t + (stop - start)),
            storePut slots t (t + (stop - start)) data)) ∧
        start ≤ t ∧ ¬ Overlaps slots t (t + (stop - start)) ∧
        ∀ u, start ≤ u → u < t → Overlaps slots u (u + (stop - start))) ∧
    add_slot_with_shift demoStore3 12 32 "x" =
      .ok (some ((35, 55),
        [(10, 15, "a"), (20, 25, "b"), (30, 35, "c"), (35, 55, "x")])) := by
  constructor
  · intro α slots start stop data h hse
    exact add_slot_with_shift_spec h hse data
  · rfl

/-- Witness for C1: the general statement applied to the store
`(10,15)`, `(20,25)`, `(30,35)` and the request `(12, 32)`. -/
theorem claim_C1_witness :
    WF demoStore3 ∧ (12 : Int) < 32 ∧
    ∃ t, add_slot_with_shift demoStore3 12 32 "x" =
        .ok (some ((t, t + (32 - 12)), storePut demoStore3 t (t + (32 - 12)) "x")) ∧
      (12 : Int) ≤ t ∧ ¬ Overlaps demoStore3 t (t + (32 - 12)) ∧
      ∀ u, (12 : Int) ≤ u → u < t → Overlaps demoStore3 u (u + (32 - 12)) :=
  ⟨by decide, by decide,
    claim_C1_add_with_shift_minimal.1 String demoStore3 12 32 "x"
      (by decide) (by decide)⟩

/-- C2: after every sequence of `add`, `addWithShift` and `remove`
calls starting from the empty store, no two stored intervals overlap
and `allSlots()` is non-decreasing by start. -/
theorem claim_C2_invariant (α : Type) (ops : List (Op α)) :
    (runOps ops).Pairwise (fun a b => ¬ (a.1 < b.2.1 ∧ b.1 < a.2.1)) ∧
    (get_all_slots (runOps ops)).Pairwise (fun a b => a.1 ≤ b.1) := by
  have h := WF_runOps ops
  constructor
  · refine List.Pairwise.imp_of_mem ?_ h.2
    intro a b _ _ hab
    rintro ⟨h1, h2⟩
    omega
  · exact List.Pairwise.imp le_of_lt h.sortedStarts

/-- A sample call sequence exercising all three mutating operations. -/
def demoOps : List (Op String) :=
  [.add 10 15 "a", .addWithShift 12 14 "b", .remove 10, .add 9 12 "c",
    .add 9 9 "bad", .addWithShift 40 30 "bad"]

/-- Witness for C2: the invariant after the sample call sequence. -/
theorem claim_C2_witness :
    (runOps demoOps).Pairwise (fun a b => ¬ (a.1 < b.2.1 ∧ b.1 < a.2.1)) ∧
    (get_all_slots (runOps demoOps)).Pairwise (fun a b => a.1 ≤ b.1) :=
  claim_C2_invariant String demoOps

/-- C3: on a well-formed store the shift search terminates: every
advancing step moves the candidate strictly forward to the end of some
stored interval, so fuel `length + 1` (one advancing iteration per
stored interval plus the final conflict-free check) always suffices. -/
theorem claim_C3_shift_terminates (α : Type) (slots : Store α) (d start : Int)
    (h : WF slots) (hd : 0 < d) :
    (∀ t t2, shiftStep slots t = some t2 →
      t < t2 ∧ ∃ sl ∈ slots, t2 = sl.2.1) ∧
    ∃ t, findAvailableSlot slots d (slots.length + 1) start = some t :=
  ⟨fun _ _ hs => shiftStep_advance h hs, findAvailableSlot_terminates h hd start⟩

/-- Witness for C3: the multi-blocker store with duration 20 from
preferred start 12. -/
theorem claim_C3_witness :
    WF demoStore3 ∧ (0 : Int) < 20 ∧
    ((∀ t t2, shiftStep demoStore3 t = some t2 →
        t < t2 ∧ ∃ sl ∈ demoStore3, t2 = sl.2.1) ∧
      ∃ t, findAvailableSlot demoStore3 20 (demoStore3.length + 1) 12 = some t) :=
  ⟨by decide, by decide,
    claim_C3_shift_terminates String demoStore3 20 12 (by decide) (by decide)⟩

/-- C4: on a well-formed store with `start < end`, `add` returns
`false` and leaves the store unchanged exactly when `[start, end)`
overlaps a stored interval, and otherwise inserts exactly
`[start, end)` and returns `true`; adjacency is no conflict
(`add(10,12,a)` then `add(12,15,b)` both succeed) while each of
`add(9,11)`, `add(11,13)`, `add(10,12)`, `add(9,13)`, `add(10,11)`
against existing `(10,12)` returns `false` and changes nothing. -/
theorem claim_C4_add_slot :
    (∀ (α : Type) (slots : Store α) (start stop : Int) (data : α),
      WF slots → start < stop →
      (Overlaps slots start stop →
        add_slot slots start stop data = .ok (false, slots)) ∧
      (¬ Overlaps slots start stop →
        add_slot slots start stop data =
          .ok (true, storePut slots start stop data) ∧
        ∀ x, x ∈ storePut slots start stop data ↔
          x = (start, stop, data) ∨ x ∈ slots)) ∧
    (add_slot ([] : Store String) 10 12 "a" = .ok (true, demoStore1) ∧
      add_slot demoStore1 12 15 "b" = .ok (true, [(10, 12, "a"), (12, 15, "b")])) ∧
    add_slot demoStore1 9 11 "z" = .ok (false, demoStore1) ∧
    add_slot demoStore1 11 13 "z" = .ok (false, demoStore1) ∧
    add_slot demoStore1 10 12 "z" = .ok (false, demoStore1) ∧
    add_slot demoStore1 9 13 "z" = .ok (false, demoStore1) ∧
    add_slot demoStore1 10 11 "z" = .ok (false, demoStore1) := by
  refine ⟨?_, ⟨rfl, rfl⟩, rfl, rfl, rfl, rfl, rfl⟩
  intro α slots start stop data h hse
  refine ⟨fun hov => add_slot_of_overlaps h hse hov data, fun hno => ?_⟩
  exact ⟨add_slot_of_not_overlaps h hse hno data,
    fun x => mem_storePut_iff (no_key_eq_start h hse hno)⟩

/-- Witness for C4: the general statement applied to the store
`(10,12)` and the overlapping request `(11, 13)`. -/
theorem claim_C4_witness :
    WF demoStore1 ∧ (11 : Int) < 13 ∧ Overlaps demoStore1 11 13 ∧
    add_slot demoStore1 11 13 "z" = .ok (false, demoStore1) :=
  ⟨by decide, by decide, by decide,
    (claim_C4_add_slot.1 String demoStore1 11 13 "z" (by decide) (by decide)).1
      (by decide)⟩

/-- C5: for `start >= end` both `add` and `addWithShift` signal the
distinct `InvalidRange` condition instead of returning an ordinary
value (and, the embedding being pure, the store is untouched); for
`start < end` neither signals it. -/
theorem claim_C5_invalid_range (α : Type) (slots : Store α) (start stop : Int)
    (data : α) :
    (stop ≤ start →
      add_slot slots start stop data = .error ⟨start, stop⟩ ∧
      add_slot_with_shift slots start stop data = .error ⟨start, stop⟩) ∧
    (start < stop →
      (∃ r, add_slot slots start stop data = .ok r) ∧
      ∃ r, add_slot_with_shift slots start stop data = .ok r) :=
  ⟨fun hse => ⟨add_slot_invalid slots hse data,
      add_slot_with_shift_invalid slots hse data⟩,
    fun hse => ⟨add_slot_ok slots hse data, add_slot_with_shift_ok slots hse data⟩⟩

/-- Witness for C5: `add(10,10,x)` and `addWithShift(10,10,x)` raise,
`add(10,11,x)` and `addWithShift(10,11,x)` do not. -/
theorem claim_C5_witness :
    (add_slot ([] : Store String) 10 10 "x" = .error ⟨10, 10⟩ ∧
      add_slot_with_shift ([] : Store String) 10 10 "x" = .error ⟨10, 10⟩) ∧
    (∃ r, add_slot ([] : Store String) 10 11 "x" = .ok r) ∧
    ∃ r, add_slot_with_shift ([] : Store String) 10 11 "x" = .ok r :=
  ⟨(claim_C5_invalid_range String [] 10 10 "x").1 (by decide),
    (claim_C5_invalid_range String [] 10 11 "x").2 (by decide)⟩

/-- C6: on a well-formed store `slotAt(time)` answers the stored
interval `[s, e)` with `s ≤ time < e` exactly when one exists (the
query is pure, so the store is never changed); `time = e` is a miss:
after `add(10,15,x)`, `slotAt(9)` and `slotAt(15)` are `none` while
`slotAt(10)` and `slotAt(14)` return `(10,15,x)`. -/
theorem claim_C6_slot_at :
    (∀ (α : Type) (slots : Store α) (time : Int), WF slots →
      ∀ sl, get_slot_at slots time = some sl ↔
        sl ∈ slots ∧ sl.1 ≤ time ∧ time < sl.2.1) ∧
    add_slot ([] : Store String) 10 15 "x" = .ok (true, demoStore1015) ∧
    get_slot_at demoStore1015 9 = none ∧
    get_slot_at demoStore1015 10 = some (10, 15, "x") ∧
    get_slot_at demoStore1015 14 = some (10, 15, "x") ∧
    get_slot_at demoStore1015 15 = none :=
  ⟨fun _ _ time h sl => get_slot_at_iff h time sl, rfl, rfl, rfl, rfl, rfl⟩

/-- Witness for C6: the characterisation applied to the store `(10,15)`
at time 14. -/
theorem claim_C6_witness :
    WF demoStore1015 ∧
    (get_slot_at demoStore1015 14 = some (10, 15, "x") ↔
      (10, 15, "x") ∈ demoStore1015 ∧ (10 : Int) ≤ 14 ∧ (14 : Int) < 15) :=
  ⟨by decide,
    claim_C6_slot_at.1 String demoStore1015 14 (by decide) (10, 15, "x")⟩

/-- C7: on a well-formed store `leftSlot(x)` answers the stored
interval with the greatest start strictly below `x` (none when no start
is below `x`) and `rightSlot(x)` the one with the smallest start
strictly above `x` (none when no start is above `x`); both skip an
interval starting exactly at `x`, and both are pure queries; with
starts `10, 20, 30`: `leftSlot(20)` is the interval at 10,
`leftSlot(10)` is none, `rightSlot(10)` is the interval at 20 and
`rightSlot(30)` is none. -/
theorem claim_C7_navigation :
    (∀ (α : Type) (slots : Store α) (x : Int), WF slots →
      (∀ sl, left_slot slots x = some sl ↔
        sl ∈ slots ∧ sl.1 < x ∧ ∀ y ∈ slots, y.1 < x → y.1 ≤ sl.1) ∧
      (left_slot slots x = none ↔ ∀ y ∈ slots, ¬ y.1 < x) ∧
      (∀ sl, right_slot slots x = some sl ↔
        sl ∈ slots ∧ x < sl.1 ∧ ∀ y ∈ slots, x < y.1 → sl.1 ≤ y.1) ∧
      (right_slot slots x = none ↔ ∀ y ∈ slots, ¬ x < y.1)) ∧
    left_slot demoStore3 20 = some (10, 15, "a") ∧
    left_slot demoStore3 10 = none ∧
    right_slot demoStore3 10 = some (20, 25, "b") ∧
    right_slot demoStore3 30 = none :=
  ⟨fun _ _ x h =>
    ⟨fun sl => left_slot_some_iff h x sl, left_slot_none_iff h x,
      fun sl => right_slot_some_iff h x sl, right_slot_none_iff h x⟩,
    rfl, rfl, rfl, rfl⟩

/-- Witness for C7: the characterisation applied to the store with
starts `10, 20, 30` at query point 20. -/
theorem claim_C7_witness :
    WF demoStore3 ∧
    (left_slot demoStore3 20 = some (10, 15, "a") ↔
      (10, 15, "a") ∈ demoStore3 ∧ (10 : Int) < 20 ∧
        ∀ y ∈ demoStore3, y.1 < 20 → y.1 ≤ 10) :=
  ⟨by decide,
    (claim_C7_navigation.1 String demoStore3 20 (by decide)).1 (10, 15, "a")⟩

/-- Sequential specification of `bulkAssignSlots` on inputs whose items
all have `start < end`: every item is executed in input order (the
final registry is the left fold of `addSlot` over the items), no item
aborts the loop or rolls earlier items back, and the outcome list is a
boolean per item. -/
theorem bulk_assign_slots_all_valid {κ α : Type} [DecidableEq κ] :
    ∀ (items : List (κ × String × Int × Int × α)) (m : CalendarManager κ α),
      (∀ it ∈ items, it.2.2.1 < it.2.2.2.1) →
      ∃ oks, CalendarManager.bulk_assign_slots m items =
          (items.foldl (fun acc it =>
            (CalendarManager.add_slot acc it.1 it.2.1 it.2.2.1 it.2.2.2.1
              it.2.2.2.2).1) m,
            .ok oks) ∧
        oks.length = items.length
  | [], m => fun _ => ⟨[], rfl, rfl⟩
  | (key, rid, start, stop, data) :: rest, m => fun hvalid => by
    have hse : start < stop :=
      hvalid (key, rid, start, stop, data) (List.mem_cons_self _ _)
    obtain ⟨b, hb⟩ := CalendarManager.add_slot_ok_val m key rid data hse
    obtain ⟨m2, hm2⟩ :
        ∃ m2, (CalendarManager.add_slot m key rid start stop data).1 = m2 :=
      ⟨_, rfl⟩
    obtain ⟨oks, hoks, hlen⟩ :=
      bulk_assign_slots_all_valid rest m2
        (fun it hit => hvalid it (List.mem_cons_of_mem _ hit))
    have hP : CalendarManager.add_slot m key rid start stop data =
        (m2, .ok b) := by
      rw [← hm2, ← hb]
    refine ⟨b :: oks, ?_, by simp [hlen]⟩
    rw [List.foldl_cons]
    dsimp only
    rw [hm2]
    simp only [CalendarManager.bulk_assign_slots]
    rw [hP]
    dsimp only
    rw [hoks]

/-- C8 counterexample: `bulkAssignSlots` does abort on an item whose
range is invalid — with input `[(1,"a",10,10,_), (1,"a",20,30,_)]` the
call propagates `InvalidRange` instead of returning a two-element
boolean sequence, the first item's auto-created entries are kept, and
the second assignment is never stored. -/
theorem claim_C8_counterexample :
    CalendarManager.bulk_assign_slots ([] : CalendarManager Nat Nat)
        [(1, "a", 10, 10, 0), (1, "a", 20, 30, 0)] =
      ([(1, [("a", [])])], .error ⟨10, 10⟩) := rfl

/-- C8 (amended): for every registry and every input list whose items
all have `start < end`, `bulkAssignSlots` executes the assignments in
input order, one item's conflict failure aborts nothing and rolls
nothing back (the final registry is exactly the fold of the per-item
assignment over the input), and the returned boolean sequence has the
length and order of the input; in particular
`bulkAssignSlots([(k,"a",10,12,_),(k,"a",11,13,_)])` returns
`[true, false]` and only the first assignment is stored. -/
theorem claim_C8_bulk_order :
    (∀ (κ α : Type) [DecidableEq κ] (m : CalendarManager κ α)
        (items : List (κ × String × Int × Int × α)),
      (∀ it ∈ items, it.2.2.1 < it.2.2.2.1) →
      ∃ oks, CalendarManager.bulk_assign_slots m items =
          (items.foldl (fun acc it =>
            (CalendarManager.add_slot acc it.1 it.2.1 it.2.2.1 it.2.2.2.1
              it.2.2.2.2).1) m,
            .ok oks) ∧
        oks.length = items.length) ∧
    CalendarManager.bulk_assign_slots ([] : CalendarManager Nat Nat)
        [(1, "a", 10, 12, 0), (1, "a", 11, 13, 0)] =
      ([(1, [("a", [(10, 12, 0)])])], .ok [true, false]) :=
  ⟨fun _ _ _ m items hvalid => bulk_assign_slots_all_valid items m hvalid, rfl⟩

/-- Witness for C8 (amended): the all-valid input
`[(1,"a",10,12,_), (1,"a",11,13,_)]` from the empty registry. -/
theorem claim_C8_witness :
    (∀ it ∈ ([(1, "a", 10, 12, 0), (1, "a", 11, 13, 0)] :
        List (Nat × String × Int × Int × Nat)), it.2.2.1 < it.2.2.2.1) ∧
    ∃ oks, CalendarManager.bulk_assign_slots ([] : CalendarManager Nat Nat)
        [(1, "a", 10, 12, 0), (1, "a", 11, 13, 0)] =
        (([(1, "a", 10, 12, 0), (1, "a", 11, 13, 0)] :
            List (Nat × String × Int × Int × Nat)).foldl
          (fun acc it =>
            (CalendarManager.add_slot acc it.1 it.2.1 it.2.2.1 it.2.2.2.1
              it.2.2.2.2).1) [],
          .ok oks) ∧
      oks.length = ([(1, "a", 10, 12, 0), (1, "a", 11, 13, 0)] :
        List (Nat × String × Int × Int × Nat)).length :=
  ⟨by decide,
    claim_C8_bulk_order.1 Nat Nat []
      [(1, "a", 10, 12, 0), (1, "a", 11, 13, 0)] (by decide)⟩

/-- C9: the read operations `getCalendarResources` and `slotsAt` are
pure functions of the registry (so they change nothing) and create no
entry: a missing key yields the empty resource list, and `slotsAt`
lists a key only when that calendar exists and has at least one hit;
the write operations `addSlot`, `addSlotWithShift` and
`addResourceToCalendar` leave the named calendar present with the named
resource present in it, creating either when missing. -/
theorem claim_C9_read_write_create (κ α : Type) [DecidableEq κ]
    (m : CalendarManager κ α) (key : κ) (time : Int) :
    (dictGet m key = none → CalendarManager.get_calendar_resources m key = []) ∧
    (∀ k hits, (k, hits) ∈ CalendarManager.get_slots_at m time (some key) →
      k = key ∧ (dictGet m k).isSome = true ∧ hits ≠ []) ∧
    (∀ k hits, (k, hits) ∈ CalendarManager.get_slots_at m time none →
      (dictGet m k).isSome = true ∧ hits ≠ []) ∧
    (∀ rid s e data,
      ∃ cal, dictGet (CalendarManager.add_slot m key rid s e data).1 key
          = some cal ∧ (dictGet cal rid).isSome = true) ∧
    (∀ rid s e data,
      ∃ cal, dictGet (CalendarManager.add_slot_with_shift m key rid s e data).1 key
          = some cal ∧ (dictGet cal rid).isSome = true) ∧
    (∀ rid,
      ∃ cal, dictGet (CalendarManager.add_resource_to_calendar m key rid) key
          = some cal ∧ (dictGet cal rid).isSome = true) := by
  refine ⟨?_, ?_, ?_, ?_, ?_, ?_⟩
  · intro h
    simp only [CalendarManager.get_calendar_resources, h]
  · intro k hits hmem
    cases hget : dictGet m key with
    | none =>
      simp only [CalendarManager.get_slots_at, hget] at hmem
      cases hmem
    | some cal =>
      simp only [CalendarManager.get_slots_at, hget] at hmem
      split at hmem
      · cases hmem
      · rename_i hne
        rw [List.mem_singleton, Prod.mk.injEq] at hmem
        obtain ⟨rfl, rfl⟩ := hmem
        refine ⟨rfl, ?_, ?_⟩
        · rw [hget]; rfl
        · exact List.isEmpty_eq_false.mp (Bool.eq_false_iff.mpr hne)
  · intro k hits hmem
    simp only [CalendarManager.get_slots_at, List.mem_filterMap] at hmem
    obtain ⟨p, hp, heq⟩ := hmem
    split at heq
    · cases heq
    · rename_i hne
      rw [Option.some.injEq, Prod.mk.injEq] at heq
      obtain ⟨rfl, rfl⟩ := heq
      exact ⟨dictGet_isSome_of_mem hp,
        List.isEmpty_eq_false.mp (Bool.eq_false_iff.mpr hne)⟩
  · intro rid s e data
    exact CalendarManager.add_slot_creates m key rid s e data
  · intro rid s e data
    exact CalendarManager.add_slot_with_shift_creates m key rid s e data
  · intro rid
    exact CalendarManager.add_resource_to_calendar_creates m key rid

/-- Witness for C9: the empty registry with key 1; the missing key
reads back empty and `addResourceToCalendar` creates calendar and
resource. -/
theorem claim_C9_witness :
    CalendarManager.get_calendar_resources ([] : CalendarManager Nat Nat) 1 = [] ∧
    ∃ cal, dictGet
        (CalendarManager.add_resource_to_calendar ([] : CalendarManager Nat Nat)
          1 "a") 1 = some cal ∧
      (dictGet cal "a").isSome = true :=
  ⟨(claim_C9_read_write_create Nat Nat [] 1 0).1 rfl,
    (claim_C9_read_write_create Nat Nat [] 1 0).2.2.2.2.2 "a"⟩

/-- C10: calling `addSlot` with `start ≥ end` on a resource id (or a
calendar key) that is absent first auto-creates the empty entry and
only then raises `InvalidRange`, so the freshly created empty entry
survives the failure — auto-creation is not rolled back. -/
theorem claim_C10_autocreate_persists :
    (∀ (α : Type) (c : Calendar α) (rid : String) (s e : Int) (data : α),
      e ≤ s → dictGet c rid = none →
      (Calendar.add_slot c rid s e data).2 = .error ⟨s, e⟩ ∧
      dictGet (Calendar.add_slot c rid s e data).1 rid = some []) ∧
    (∀ (κ α : Type) [DecidableEq κ] (m : CalendarManager κ α) (key : κ)
        (rid : String) (s e : Int) (data : α),
      e ≤ s → dictGet m key = none →
      (CalendarManager.add_slot m key rid s e data).2 = .error ⟨s, e⟩ ∧
      ∃ cal, dictGet (CalendarManager.add_slot m key rid s e data).1 key
          = some cal ∧ dictGet cal rid = some []) := by
  constructor
  · intro α c rid s e data hse hnone
    rw [Calendar.add_slot_invalid_result c rid data hse hnone]
    exact ⟨rfl, dictGet_dictSet_self c rid []⟩
  · intro κ α _ m key rid s e data hse hnone
    rw [CalendarManager.add_slot_invalid_spec m key rid data hse hnone]
    exact ⟨rfl, dictSet [] rid [], dictGet_dictSet_self _ key _,
      dictGet_dictSet_self [] rid []⟩

/-- Witness for C10: `addSlot("a", 10, 10)` against an empty group and
`addSlot(1, "a", 10, 10)` against an empty registry. -/
theorem claim_C10_witness :
    ((Calendar.add_slot ([] : Calendar Nat) "a" 10 10 0).2 = .error ⟨10, 10⟩ ∧
      dictGet (Calendar.add_slot ([] : Calendar Nat) "a" 10 10 0).1 "a"
        = some []) ∧
    ((CalendarManager.add_slot ([] : CalendarManager Nat Nat) 1 "a" 10 10 0).2
        = .error ⟨10, 10⟩ ∧
      ∃ cal, dictGet
          (CalendarManager.add_slot ([] : CalendarManager Nat Nat)
            1 "a" 10 10 0).1 1 = some cal ∧
        dictGet cal "a" = some []) :=
  ⟨claim_C10_autocreate_persists.1 Nat [] "a" 10 10 0 (by decide) rfl,
    claim_C10_autocreate_persists.2 Nat Nat [] 1 "a" 10 10 0 (by decide) rfl⟩

end TimeSlot
